import Mathlib

/-!
Verification development for the Superforecasting pipeline.

Shallow embedding of the Python sources:
* `ordered_brier_eval.py` : the Ordered Brier scoring rule
  (`ordered_brier_from_distribution`), with `ValueError` modelled as
  `Option.none` and real arithmetic modelled over `ℚ`.
* `carry_forward.py` : the per-question carry-forward engine
  (`carry_forward_snapshots`).  The source processes each question
  independently inside a `groupby` loop; the embedding models the body of
  that loop for a single question, with days as integers.
* `pipeline.py` : freeze-day selection and the post-freeze trim filter of
  `run_aggregate_with_trimming`.
* `means.py` : `geometric_mean_prob`, `geometric_mean_odds` over `ℝ`, with
  `NaN` results modelled as `Option.none`.
* `aggregation.py` : `aggregate_across_forecasters` (pooling across
  forecasters plus per-(question, day) renormalization) over `ℝ`.
-/

/-! ## Ordered Brier scoring rule (`ordered_brier_eval.py`) -/

/-- `np.cumsum l` : entry `j` is the sum of the first `j+1` entries of `l`. -/
def cumsum (l : List ℚ) : List ℚ :=
  (List.range l.length).map (fun j => (l.take (j + 1)).sum)

/-- The strict one-hot check of `ordered_brier_from_distribution`:
every entry is `0` or `1`, and exactly one entry equals `1`. -/
def isOneHot (outcome : List ℚ) : Prop :=
  (∀ x ∈ outcome, x = 0 ∨ x = 1) ∧ outcome.count 1 = 1

instance : DecidablePred isOneHot := fun l => by
  unfold isOneHot; infer_instance

/-- The `K = 1` implicit-complement expansion of
`ordered_brier_from_distribution`: a single bucket becomes a binary
forecast against its complement. -/
def expandK1 (probs outcome : List ℚ) : List ℚ × List ℚ :=
  if probs.length = 1 then
    ([probs.headD 0, 1 - probs.headD 0], [outcome.headD 0, 1 - outcome.headD 0])
  else (probs, outcome)

/-- Embedding of `ordered_brier_from_distribution` from
`ordered_brier_eval.py` (1-D inputs), with a raised `ValueError` modelled
as `none`.  Checks lengths, expands `K = 1`, validates the one-hot
outcome, gently renormalizes `probs` when its sum is positive, and
averages `2 * (cum_forecast[j] - cum_truth[j])^2` over the `K - 1`
split points. -/
def ordered_brier_from_distribution (probs outcome : List ℚ) : Option ℚ :=
  if probs.length ≠ outcome.length then none
  else
    let pe := expandK1 probs outcome
    if ¬ isOneHot pe.2 then none
    else
      let psum := pe.1.sum
      let ps := if 0 < psum then pe.1.map (· / psum) else pe.1
      let cf := cumsum ps
      let ct := cumsum pe.2
      let terms := ((cf.zip ct).take (pe.1.length - 1)).map
        (fun p => 2 * (p.1 - p.2) ^ 2)
      some (terms.sum / (terms.length : ℚ))

/-- The Ordered Brier score exactly as the spec words it: the arithmetic
mean over split points `j = 0 .. K-2` of `2 * (P j - Y j)^2`, where `P` is
the cumulative sum of `probs` rescaled to total `1` when the raw sum is
positive, and `Y` is the cumulative sum of `outcome`. -/
def orderedBrierSpecFormula (probs outcome : List ℚ) : ℚ :=
  let s := probs.sum
  let P := cumsum (if 0 < s then probs.map (· / s) else probs)
  let Y := cumsum outcome
  (((List.range (probs.length - 1)).map
      (fun j => 2 * (P.getD j 0 - Y.getD j 0) ^ 2)).sum) / ((probs.length - 1 : ℕ) : ℚ)

/-! ## Freeze-day selection (`pipeline.py`, step A of
`run_aggregate_with_trimming`) -/

/-- The freeze index `max(0, ceil(f * N) - 1)` from `pipeline.py`. -/
def freezeIndex (f : ℚ) (N : ℕ) : ℕ :=
  (max 0 (⌈f * (N : ℚ)⌉ - 1)).toNat

/-- Embedding of the freeze-day selection: deduplicate the
(question id, correctness-known day) pairs, sort them by day (stable),
and pick the day at `freezeIndex`.  `none` models the out-of-bounds
`iloc` access. -/
def selectFreezeDay (pairs : List (ℕ × ℤ)) (f : ℚ) : Option ℤ :=
  let q_ck := (pairs.dedup).insertionSort (fun p q => p.2 ≤ q.2)
  (q_ck[freezeIndex f q_ck.length]?).map (·.2)

/-! ## Carry-forward engine (`carry_forward.py`) -/

/-- One input row of the compact `forecaster_day` table for a single
question: forecaster (`membership guid`), bucket (`answer sort order`),
day, and submitted probability.  Rows are kept in original order. -/
structure Submission where
  guid : ℕ
  aso : ℕ
  day : ℤ
  prob : ℚ
deriving DecidableEq

/-- One entry of the engine state: the pair of dictionaries
`latest_probs` / `latest_day` keyed by `(guid, aso)`. -/
structure Entry where
  guid : ℕ
  aso : ℕ
  prob : ℚ
  lastDay : ℤ
deriving DecidableEq

/-- One emitted snapshot row. -/
structure SnapRow where
  guid : ℕ
  aso : ℕ
  day : ℤ
  prob : ℚ
deriving DecidableEq

/-- Applying one submission to the state dictionaries: an existing
`(guid, aso)` key is updated in place, a new key is appended (Python dict
insertion-order semantics). -/
def upsert (st : List Entry) (r : Submission) : List Entry :=
  if st.any (fun e => decide (e.guid = r.guid ∧ e.aso = r.aso)) then
    st.map (fun e =>
      if e.guid = r.guid ∧ e.aso = r.aso then
        { e with prob := r.prob, lastDay := r.day }
      else e)
  else st ++ [⟨r.guid, r.aso, r.prob, r.day⟩]

/-- Whether an entry last updated on day `U` survives the staleness check
on day `d` : kept when no limit is configured, or when `d - U ≤ S`
(the source drops entries with `(day - dlast) > cutoff`). -/
def keepsAt (ms : Option ℕ) (d U : ℤ) : Prop :=
  match ms with
  | none => True
  | some S => d - U ≤ (S : ℤ)

instance : ∀ ms d U, Decidable (keepsAt ms d U) := fun ms d U =>
  match ms with
  | none => isTrue trivial
  | some S => inferInstanceAs (Decidable (d - U ≤ (S : ℤ)))

/-- The staleness eviction of `carry_forward_snapshots` on day `d`: when
a limit `S` is configured, drop every entry with `d - latest_update > S`
(that is, keep those with `d - latest_update ≤ S`). -/
def evictStale (ms : Option ℕ) (d : ℤ) (st : List Entry) : List Entry :=
  match ms with
  | none => st
  | some S => st.filter (fun e => decide (d - e.lastDay ≤ (S : ℤ)))

/-- The body of the day loop of `carry_forward_snapshots`: fold today's
submissions into the state (last write within the day wins), then drop
stale entries when a staleness limit is configured. -/
def stepState (ms : Option ℕ) (rows : List Submission) (st : List Entry) (d : ℤ) :
    List Entry :=
  evictStale ms d ((rows.filter (fun r => decide (r.day = d))).foldl upsert st)

/-- The snapshot rows emitted for one day: every active entry. -/
def emitDay (st : List Entry) (d : ℤ) : List SnapRow :=
  st.map (fun e => ⟨e.guid, e.aso, d, e.prob⟩)

/-- The day loop of `carry_forward_snapshots`: walk the sorted observed
days, updating state and emitting the active entries each day. -/
def runDays (ms : Option ℕ) (rows : List Submission) :
    List ℤ → List Entry → List SnapRow
  | [], _ => []
  | d :: ds, st =>
    let st2 := stepState ms rows st d
    emitDay st2 d ++ runDays ms rows ds st2

/-- `sorted(pd.unique(sub_q["day"]))` : the distinct submission days in
ascending order. -/
def observedDays (rows : List Submission) : List ℤ :=
  ((rows.map (·.day)).dedup).insertionSort (· ≤ ·)

/-- Embedding of `carry_forward_snapshots` for a single question (the
source processes questions independently; the constant question id column
is omitted). -/
def carry_forward_snapshots (ms : Option ℕ) (rows : List Submission) : List SnapRow :=
  runDays ms rows (observedDays rows) []

/-- The state after processing a list of days from the empty dictionaries. -/
def stateAfter (ms : Option ℕ) (rows : List Submission) (ds : List ℤ) : List Entry :=
  ds.foldl (stepState ms rows) []

/-- All submissions of forecaster `g` for bucket `a`, in original order. -/
def subsFor (rows : List Submission) (g a : ℕ) : List Submission :=
  rows.filter (fun r => decide (r.guid = g ∧ r.aso = a))

/-- The entries of the state belonging to key `(g, a)`. -/
def keyEntries (st : List Entry) (g a : ℕ) : List Entry :=
  st.filter (fun e => decide (e.guid = g ∧ e.aso = a))

/-- The reference submission for key `(g, a)` relative to a list of
processed days: walking the days in order, keep the last submission (in
row order) of the most recent day carrying one. -/
def refSub (rows : List Submission) (g a : ℕ) (ds : List ℤ) : Option Submission :=
  ds.foldl
    (fun acc d =>
      match ((subsFor rows g a).filter (fun r => decide (r.day = d))).getLast? with
      | none => acc
      | some r => some r)
    none

/-- Maximum of a list of integers, `none` on the empty list. -/
def listMaxI : List ℤ → Option ℤ
  | [] => none
  | x :: xs =>
    match listMaxI xs with
    | none => some x
    | some y => some (max x y)

/-- The last submission (in original row order) of forecaster `g` for
bucket `a` on day `d` exactly. -/
def lastOnDay (rows : List Submission) (g a : ℕ) (d : ℤ) : Option Submission :=
  ((subsFor rows g a).filter (fun r => decide (r.day = d))).getLast?

/-- The most recent day on or before `D` on which forecaster `g`
submitted for bucket `a`. -/
def lastUpdateDay (rows : List Submission) (g a : ℕ) (D : ℤ) : Option ℤ :=
  listMaxI (((subsFor rows g a).filter (fun r => decide (r.day ≤ D))).map (·.day))

/-- The most recent submission of `g` for `a` on or before `D`, ties
within a day broken by original row order (last wins). -/
def mostRecentSub (rows : List Submission) (g a : ℕ) (D : ℤ) : Option Submission :=
  (lastUpdateDay rows g a D).bind (lastOnDay rows g a)

/-- The probability of the most recent submission of `g` for `a` on or
before `D`, ties within a day broken by original row order (last wins). -/
def mostRecentProb (rows : List Submission) (g a : ℕ) (D : ℤ) : Option ℚ :=
  (lastUpdateDay rows g a D).bind (fun U => (lastOnDay rows g a U).map (·.prob))

/-! ## Post-freeze trim filter (`pipeline.py`, step C of
`run_aggregate_with_trimming`) -/

/-- Embedding of the trim step: when the excluded set is non-empty, drop
every snapshot row dated strictly after the freeze day whose forecaster is
excluded; keep everything else in order. -/
def trim_post_freeze (snaps : List SnapRow) (freeze : ℤ) (excluded : List ℕ) :
    List SnapRow :=
  if excluded.isEmpty then snaps
  else snaps.filter (fun s => decide (¬ (freeze < s.day ∧ s.guid ∈ excluded)))

/-! ## Pooling means (`means.py`), over `ℝ`; `NaN` results are `none` -/

/-- The small constant `EPS = 1e-5` of `means.py`. -/
noncomputable def EPS : ℝ := 1 / 100000

/-- `np.clip(x, lo, hi)`. -/
noncomputable def clip (lo hi x : ℝ) : ℝ := min (max x lo) hi

/-- The log-space geometric mean of `geometric_mean_prob` after input
validation: clip to `[EPS, 1 - EPS]`, then `exp(mean(log(.)))`. -/
noncomputable def gmCore (l : List ℝ) : ℝ :=
  Real.exp ((l.map (fun x => Real.log (clip EPS (1 - EPS) x))).sum / (l.length : ℝ))

/-- Embedding of `geometric_mean_prob` from `means.py`: `NaN` (empty
input or a negative entry) is modelled as `none`. -/
noncomputable def geometric_mean_prob (l : List ℝ) : Option ℝ :=
  if l.isEmpty then none
  else if ∃ x ∈ l, x < 0 then none
  else some (gmCore l)

/-- `odds = p / (1 - p)`. -/
noncomputable def oddsOf (p : ℝ) : ℝ := p / (1 - p)

/-- The computation of `geometric_mean_odds` after input validation:
clip, convert to odds, take the log-space geometric mean of the odds, and
convert the result back to a probability `o / (1 + o)`. -/
noncomputable def gmOddsCore (l : List ℝ) : ℝ :=
  let o := Real.exp
    ((l.map (fun x => Real.log (oddsOf (clip EPS (1 - EPS) x)))).sum / (l.length : ℝ))
  o / (1 + o)

/-- Embedding of `geometric_mean_odds` from `means.py`: `NaN` (empty
input or any entry outside `[0, 1]`) is modelled as `none`. -/
noncomputable def geometric_mean_odds (l : List ℝ) : Option ℝ :=
  if l.isEmpty then none
  else if (∃ x ∈ l, x < 0) ∨ (∃ x ∈ l, 1 < x) then none
  else some (gmOddsCore l)

/-- Arithmetic mean of a list (the pandas `mean` aggregator on a
non-empty group). -/
noncomputable def listMean (l : List ℝ) : ℝ := l.sum / (l.length : ℝ)

/-- The pandas `median` aggregator on a non-empty group: sort, take the
middle element, or the average of the two middle elements. -/
noncomputable def listMedian (l : List ℝ) : ℝ :=
  let s := l.insertionSort (· ≤ ·)
  if s.length % 2 = 1 then s.getD (s.length / 2) 0
  else (s.getD (s.length / 2 - 1) 0 + s.getD (s.length / 2) 0) / 2

/-- Embedding of `trimmed_mean_prob` from `means.py` with
`trim_frac = 0.1`: drop the lowest and highest `⌊n/10⌋` values unless
that would delete everything, then average; `NaN` on empty input is
`none`. -/
noncomputable def trimmed_mean_prob (l : List ℝ) : Option ℝ :=
  if l.isEmpty then none
  else
    let s := l.insertionSort (· ≤ ·)
    let k := s.length / 10
    let t := if s.length ≤ 2 * k then s else (s.drop k).take (s.length - 2 * k)
    some (listMean t)

/-! ## Aggregation across forecasters (`aggregation.py`) -/

/-- One snapshot row as consumed by `aggregate_across_forecasters`
(question id, forecaster, day, bucket, probability).  The
`resolved_probability` and `n_forecasters` columns are carried through
the source unchanged and are not involved in any claim, so they are
omitted here. -/
structure Snap where
  qid : ℕ
  guid : ℕ
  day : ℤ
  aso : ℕ
  prob : ℝ

/-- One pooled output row: group key plus the five estimator-method
columns `mean, median, trimmed mean, geometric mean of probabilities,
geometric mean of odds` in that order. -/
structure AggRow where
  qid : ℕ
  day : ℤ
  aso : ℕ
  cols : Fin 5 → ℝ

/-- Lexicographic order on `(question id, day, bucket)` keys, the order
pandas `groupby` sorts group keys in. -/
def tripLe (a b : ℕ × ℤ × ℕ) : Prop :=
  a.1 < b.1 ∨ (a.1 = b.1 ∧ (a.2.1 < b.2.1 ∨ (a.2.1 = b.2.1 ∧ a.2.2 ≤ b.2.2)))

instance : DecidableRel tripLe := fun a b => by
  unfold tripLe; infer_instance

/-- The distinct `(question id, day, bucket)` group keys in sorted order. -/
def groupKeys (snaps : List Snap) : List (ℕ × ℤ × ℕ) :=
  ((snaps.map (fun s => (s.qid, s.day, s.aso))).dedup).insertionSort tripLe

/-- The probabilities of one `(question id, day, bucket)` group, in
original row order. -/
def groupProbs (snaps : List Snap) (k : ℕ × ℤ × ℕ) : List ℝ :=
  (snaps.filter (fun s => decide ((s.qid, s.day, s.aso) = k))).map (·.prob)

/-- The five pooled estimator-method values of one group.  The groups fed
to the means are always non-empty, so the `getD 0` default is never the
value actually used. -/
noncomputable def pooledCols (probs : List ℝ) : Fin 5 → ℝ :=
  ![listMean probs, listMedian probs, (trimmed_mean_prob probs).getD 0,
    (geometric_mean_prob probs).getD 0, (geometric_mean_odds probs).getD 0]

/-- The pooled table before renormalization: one row per group key. -/
noncomputable def pooledTable (snaps : List Snap) : List AggRow :=
  (groupKeys snaps).map (fun k => ⟨k.1, k.2.1, k.2.2, pooledCols (groupProbs snaps k)⟩)

/-- The per-(question, day) renormalization of one row: each method
column is divided by that method's total over the row's group, but only
when the group has more than one bucket and the total is strictly
positive. -/
noncomputable def renormRow (tbl : List AggRow) (r : AggRow) : AggRow :=
  { r with cols := fun c =>
      let grp := tbl.filter (fun q => decide (q.qid = r.qid ∧ q.day = r.day))
      let total := (grp.map (fun q => q.cols c)).sum
      if 1 < grp.length ∧ 0 < total then r.cols c / total else r.cols c }

/-- Embedding of `aggregate_across_forecasters` from `aggregation.py`:
pool the snapshots per `(question id, day, bucket)` into the five
estimator methods, then renormalize per `(question id, day)`. -/
noncomputable def aggregate_across_forecasters (snaps : List Snap) : List AggRow :=
  (pooledTable snaps).map (renormRow (pooledTable snaps))

/-! ## Theorems -/

/-- Helper: a mapped prefix of a zip written as a map over indices. -/
theorem take_zip_map_eq_range (A B : List ℚ) (f : ℚ → ℚ → ℚ) (m : ℕ)
    (hA : m ≤ A.length) (hB : m ≤ B.length) :
    ((A.zip B).take m).map (fun p => f p.1 p.2) =
      (List.range m).map (fun j => f (A.getD j 0) (B.getD j 0)) := by
  apply List.ext_getElem
  · simp only [List.length_map, List.length_take, List.length_zip, List.length_range]
    omega
  · intro i h1 h2
    have hiA : i < A.length := by
      simp only [List.length_map, List.length_range] at h2; omega
    have hiB : i < B.length := by
      simp only [List.length_map, List.length_range] at h2; omega
    have hiz : i < (A.zip B).length := by
      simp only [List.length_zip]; omega
    simp only [List.getElem_map, List.getElem_take, List.getElem_range,
      List.getElem_zip]
    rw [List.getD_eq_getElem A 0 hiA, List.getD_eq_getElem B 0 hiB]

/-- Helper: the length of `cumsum`. -/
theorem cumsum_length (l : List ℚ) : (cumsum l).length = l.length := by
  simp [cumsum]

/-- Claim C2: on a forecast vector of length `K ≥ 2` with non-negative
entries and a one-hot outcome of the same length,
`ordered_brier_from_distribution` returns exactly the spec formula: the
arithmetic mean over split points `j = 0 .. K-2` of `2 * (P j - Y j)^2`,
with `P` the cumulative sums of the (conditionally rescaled) forecast and
`Y` the cumulative sums of the outcome. -/
theorem ordered_brier_matches_spec_formula (probs outcome : List ℚ)
    (hK : 2 ≤ probs.length) (hlen : outcome.length = probs.length)
    (hnn : ∀ x ∈ probs, 0 ≤ x) (hoh : isOneHot outcome) :
    ordered_brier_from_distribution probs outcome =
      some (orderedBrierSpecFormula probs outcome) := by
  have hne : ¬ probs.length = 1 := by omega
  have hexp : expandK1 probs outcome = (probs, outcome) := by
    unfold expandK1
    rw [if_neg hne]
  simp only [ordered_brier_from_distribution, hexp]
  rw [if_neg (by omega)]
  rw [if_neg (by simpa using hoh)]
  congr 1
  unfold orderedBrierSpecFormula
  have hps : (if 0 < probs.sum then probs.map (· / probs.sum) else probs).length
      = probs.length := by
    split <;> simp
  rw [take_zip_map_eq_range (cumsum (if 0 < probs.sum then probs.map (· / probs.sum) else probs))
      (cumsum outcome) (fun a b => 2 * (a - b) ^ 2) (probs.length - 1)
      (by rw [cumsum_length, hps]; omega) (by rw [cumsum_length, hlen]; omega)]
  simp only [List.length_map, List.length_range]

/-- Witness for C2: the worked example of the spec,
`ordered_brier([0, 0.5, 0.25, 0.25], [0, 1, 0, 0]) = 5/24`. -/
theorem ordered_brier_matches_spec_formula_witness :
    ordered_brier_from_distribution [0, 1/2, 1/4, 1/4] [0, 1, 0, 0] = some (5/24) := by
  have h := ordered_brier_matches_spec_formula [0, 1/2, 1/4, 1/4] [0, 1, 0, 0]
    (by norm_num) (by norm_num) (by norm_num) (by decide)
  rw [h]
  congr 1
  norm_num [orderedBrierSpecFormula, cumsum, List.range_succ]

/-- Claim C7: `ordered_brier_from_distribution` fails (raises
`ValueError`, modelled as `none`) if and only if the (1-D) inputs have
different lengths, or the outcome — after the `K = 1` complement
expansion when applicable — is not exactly one-hot; on every other input
it returns a score. -/
theorem ordered_brier_error_iff (probs outcome : List ℚ) :
    ordered_brier_from_distribution probs outcome = none ↔
      probs.length ≠ outcome.length ∨ ¬ isOneHot (expandK1 probs outcome).2 := by
  simp only [ordered_brier_from_distribution]
  split_ifs with h1 h2 <;> simp_all

/-- Claim C8: a single-bucket input is scored exactly as its implicit
binary complement: for `p ∈ [0,1]` and `y ∈ {0,1}`,
`ordered_brier([p], [y]) = ordered_brier([p, 1-p], [y, 1-y])`. -/
theorem ordered_brier_k1_expansion (p y : ℚ) (hp : 0 ≤ p ∧ p ≤ 1)
    (hy : y = 0 ∨ y = 1) :
    ordered_brier_from_distribution [p] [y] =
      ordered_brier_from_distribution [p, 1 - p] [y, 1 - y] := by
  simp only [ordered_brier_from_distribution, expandK1]
  norm_num

/-- Witness for C8: the spec's example `ordered_brier([0.6], [1]) =
ordered_brier([0.6, 0.4], [1, 0])`. -/
theorem ordered_brier_k1_expansion_witness :
    ordered_brier_from_distribution [3/5] [1] =
      ordered_brier_from_distribution [3/5, 2/5] [1, 0] := by
  have h := ordered_brier_k1_expansion (3/5) 1 (by norm_num) (Or.inr rfl)
  norm_num at h
  exact h

/-- Claim C5: with `N ≥ 1` distinct resolved questions whose
correctness-known days are distinct and listed in ascending order,
`run_aggregate_with_trimming` selects as freeze day the day at 0-indexed
position `max(0, ⌈f·N⌉ - 1)` of that order, a position always in range. -/
theorem freeze_day_selection (pairs : List (ℕ × ℤ)) (f : ℚ)
    (hne : pairs ≠ [])
    (hq : (pairs.map (·.1)).Nodup)
    (hdays : (pairs.map (·.2)).Pairwise (· < ·))
    (hf0 : 0 < f) (hf1 : f ≤ 1) :
    selectFreezeDay pairs f = (pairs.map (·.2))[freezeIndex f pairs.length]? ∧
      freezeIndex f pairs.length < pairs.length := by
  have hnd : pairs.Nodup := by
    have := hq
    exact List.Nodup.of_map _ this
  have hdd : pairs.dedup = pairs := List.dedup_eq_self.mpr hnd
  have hsorted : pairs.Sorted (fun p q => p.2 ≤ q.2) := by
    have h2 := (List.pairwise_map.mp hdays)
    exact h2.imp (fun h => le_of_lt h)
  have hsort_eq : pairs.insertionSort (fun p q => p.2 ≤ q.2) = pairs :=
    hsorted.insertionSort_eq
  have hlen : 1 ≤ pairs.length := by
    cases pairs with
    | nil => exact absurd rfl hne
    | cons a l => simp
  have hidx : freezeIndex f pairs.length < pairs.length := by
    unfold freezeIndex
    have hceil : ⌈f * (pairs.length : ℚ)⌉ ≤ (pairs.length : ℤ) := by
      apply Int.ceil_le.mpr
      push_cast
      calc f * (pairs.length : ℚ) ≤ 1 * (pairs.length : ℚ) := by
            apply mul_le_mul_of_nonneg_right hf1
            positivity
        _ = (pairs.length : ℚ) := one_mul _
    omega
  refine ⟨?_, hidx⟩
  unfold selectFreezeDay
  rw [hdd, hsort_eq]
  rw [List.getElem?_map]

/-- Witness for C5: ten questions with correctness-known days
`1 < 2 < ... < 10` and `f = 0.4` freeze on day `4` (the spec's `d4`). -/
theorem freeze_day_selection_witness :
    selectFreezeDay
      [(1, (1 : ℤ)), (2, 2), (3, 3), (4, 4), (5, 5),
       (6, 6), (7, 7), (8, 8), (9, 9), (10, 10)] (2/5) = some 4 := by
  have h := (freeze_day_selection
      [(1, (1 : ℤ)), (2, 2), (3, 3), (4, 4), (5, 5),
       (6, 6), (7, 7), (8, 8), (9, 9), (10, 10)] (2/5)
      (by decide) (by decide) (by decide) (by norm_num) (by norm_num)).1
  rw [h]
  have hi : freezeIndex (2/5)
      [(1, (1 : ℤ)), (2, 2), (3, 3), (4, 4), (5, 5),
       (6, 6), (7, 7), (8, 8), (9, 9), (10, 10)].length = 3 := by
    unfold freezeIndex
    norm_num
    rfl
  rw [hi]
  rfl

/-- Claim C6: with a non-empty excluded set, the trim step removes a
full-period snapshot row exactly when its day is strictly after the
freeze day and its forecaster is excluded; every other row is kept with
its multiplicity, in the original order. -/
theorem trim_filter_spec (snaps : List SnapRow) (freeze : ℤ) (excluded : List ℕ)
    (hne : excluded ≠ []) :
    (∀ s : SnapRow,
      (trim_post_freeze snaps freeze excluded).count s =
        if freeze < s.day ∧ s.guid ∈ excluded then 0 else snaps.count s) ∧
    List.Sublist (trim_post_freeze snaps freeze excluded) snaps := by
  have hE : ¬ excluded.isEmpty := by
    simpa [List.isEmpty_iff] using hne
  unfold trim_post_freeze
  rw [if_neg hE]
  constructor
  · intro s
    by_cases h : freeze < s.day ∧ s.guid ∈ excluded
    · rw [if_pos h]
      refine List.count_eq_zero.mpr ?_
      intro hm
      have h2 := List.of_mem_filter hm
      exact (of_decide_eq_true h2) h
    · rw [if_neg h]
      exact List.count_filter (decide_eq_true h)
  · exact List.filter_sublist snaps

/-- Helper: the clip of `means.py` always lands in `[EPS, 1 - EPS]`. -/
theorem clip_mem (x : ℝ) :
    EPS ≤ clip EPS (1 - EPS) x ∧ clip EPS (1 - EPS) x ≤ 1 - EPS := by
  unfold clip
  constructor
  · apply le_min (le_max_right x EPS)
    unfold EPS; norm_num
  · exact min_le_right _ _

/-- Helper: `0 < EPS`. -/
theorem EPS_pos : (0 : ℝ) < EPS := by unfold EPS; norm_num

/-- Helper: the log-space geometric mean of clipped values lies in
`[EPS, 1 - EPS]`. -/
theorem gmCore_bounds (l : List ℝ) (hne : l ≠ []) :
    EPS ≤ gmCore l ∧ gmCore l ≤ 1 - EPS := by
  have hn : 0 < (l.length : ℝ) := by
    have := List.length_pos.mpr hne
    exact_mod_cast this
  have hlo : ∀ y ∈ l.map (fun x => Real.log (clip EPS (1 - EPS) x)),
      Real.log EPS ≤ y := by
    intro y hy
    obtain ⟨x, hx, rfl⟩ := List.mem_map.mp hy
    exact Real.log_le_log EPS_pos (clip_mem x).1
  have hhi : ∀ y ∈ l.map (fun x => Real.log (clip EPS (1 - EPS) x)),
      y ≤ Real.log (1 - EPS) := by
    intro y hy
    obtain ⟨x, hx, rfl⟩ := List.mem_map.mp hy
    exact Real.log_le_log (lt_of_lt_of_le EPS_pos (clip_mem x).1) (clip_mem x).2
  have hsum_lo := List.card_nsmul_le_sum _ (Real.log EPS) hlo
  have hsum_hi := List.sum_le_card_nsmul _ (Real.log (1 - EPS)) hhi
  rw [List.length_map, nsmul_eq_mul] at hsum_lo hsum_hi
  have hdiv_lo : Real.log EPS ≤
      (l.map (fun x => Real.log (clip EPS (1 - EPS) x))).sum / (l.length : ℝ) := by
    rw [le_div_iff₀ hn]
    linarith
  have hdiv_hi :
      (l.map (fun x => Real.log (clip EPS (1 - EPS) x))).sum / (l.length : ℝ)
        ≤ Real.log (1 - EPS) := by
    rw [div_le_iff₀ hn]
    linarith
  unfold gmCore
  constructor
  · calc EPS = Real.exp (Real.log EPS) := (Real.exp_log EPS_pos).symm
      _ ≤ _ := Real.exp_le_exp.mpr hdiv_lo
  · calc Real.exp _ ≤ Real.exp (Real.log (1 - EPS)) := Real.exp_le_exp.mpr hdiv_hi
      _ = 1 - EPS := Real.exp_log (by unfold EPS; norm_num)

/-- Claim C9: on any non-empty list of values in `[0, 1]` both geometric
means return (no exception, `some`) a value in `[0, 1]`; a negative entry
makes both return `NaN` (`none`), and for `geometric_mean_odds` any entry
outside `[0, 1]` returns `NaN` (`none`).  Both embeddings are total
functions, so no input raises. -/
theorem means_safety (l : List ℝ) :
    (l ≠ [] → (∀ x ∈ l, 0 ≤ x ∧ x ≤ 1) →
      (∃ v, geometric_mean_prob l = some v ∧ 0 ≤ v ∧ v ≤ 1) ∧
      (∃ w, geometric_mean_odds l = some w ∧ 0 ≤ w ∧ w ≤ 1)) ∧
    ((∃ x ∈ l, x < 0) →
      geometric_mean_prob l = none ∧ geometric_mean_odds l = none) ∧
    ((∃ x ∈ l, x < 0 ∨ 1 < x) → geometric_mean_odds l = none) := by
  refine ⟨?_, ?_, ?_⟩
  · intro hne hval
    have hno : ¬ ∃ x ∈ l, x < 0 := by
      push_neg
      intro x hx
      exact (hval x hx).1
    have hno2 : ¬ ((∃ x ∈ l, x < 0) ∨ (∃ x ∈ l, 1 < x)) := by
      push_neg
      refine ⟨?_, ?_⟩ <;> intro x hx
      · exact (hval x hx).1
      · exact (hval x hx).2
    have hEmpty : ¬ l.isEmpty := by
      simpa [List.isEmpty_iff] using hne
    constructor
    · refine ⟨gmCore l, ?_, ?_, ?_⟩
      · unfold geometric_mean_prob
        rw [if_neg hEmpty, if_neg hno]
      · exact le_trans EPS_pos.le (gmCore_bounds l hne).1
      · have h := (gmCore_bounds l hne).2
        have : (0 : ℝ) < EPS := EPS_pos
        linarith
    · refine ⟨gmOddsCore l, ?_, ?_, ?_⟩
      · unfold geometric_mean_odds
        rw [if_neg hEmpty, if_neg hno2]
      · unfold gmOddsCore
        have ho := Real.exp_pos
          ((l.map (fun x => Real.log (oddsOf (clip EPS (1 - EPS) x)))).sum / (l.length : ℝ))
        positivity
      · unfold gmOddsCore
        have ho := Real.exp_pos
          ((l.map (fun x => Real.log (oddsOf (clip EPS (1 - EPS) x)))).sum / (l.length : ℝ))
        rw [div_le_one (by linarith)]
        linarith
  · intro hneg
    have hEmpty : ¬ l.isEmpty := by
      obtain ⟨x, hx, _⟩ := hneg
      have : l ≠ [] := by
        intro h
        rw [h] at hx
        exact absurd hx (List.not_mem_nil x)
      simpa [List.isEmpty_iff] using this
    constructor
    · unfold geometric_mean_prob
      rw [if_neg hEmpty, if_pos hneg]
    · unfold geometric_mean_odds
      rw [if_neg hEmpty, if_pos (Or.inl hneg)]
  · intro hbad
    obtain ⟨x, hx, hcase⟩ := hbad
    have hEmpty : ¬ l.isEmpty := by
      have : l ≠ [] := by
        intro h
        rw [h] at hx
        exact absurd hx (List.not_mem_nil x)
      simpa [List.isEmpty_iff] using this
    unfold geometric_mean_odds
    rcases hcase with h | h
    · rw [if_neg hEmpty, if_pos (Or.inl ⟨x, hx, h⟩)]
    · rw [if_neg hEmpty, if_pos (Or.inr ⟨x, hx, h⟩)]

/-- Witness for C9: the valid input `[0.5]` yields in-range values from
both geometric means, and the negative input `[-1]` yields `NaN`. -/
theorem means_safety_witness :
    ((∃ v, geometric_mean_prob [(1/2 : ℝ)] = some v ∧ 0 ≤ v ∧ v ≤ 1) ∧
      (∃ w, geometric_mean_odds [(1/2 : ℝ)] = some w ∧ 0 ≤ w ∧ w ≤ 1)) ∧
    geometric_mean_prob [(-1 : ℝ)] = none := by
  constructor
  · refine (means_safety [(1/2 : ℝ)]).1 (by simp) ?_
    intro x hx
    rw [List.mem_singleton] at hx
    subst hx
    norm_num
  · exact ((means_safety [(-1 : ℝ)]).2.1 ⟨-1, by simp, by norm_num⟩).1

/-- Claim C10: on any non-empty input with all values in `[0, 1]`,
`geometric_mean_prob` returns a value in `[EPS, 1 - EPS]` with
`EPS = 1e-5`; in particular the result is strictly positive even when the
input contains an exact `0`. -/
theorem gm_prob_clipped_range (l : List ℝ) (hne : l ≠ [])
    (hval : ∀ x ∈ l, 0 ≤ x ∧ x ≤ 1) :
    ∃ v, geometric_mean_prob l = some v ∧ EPS ≤ v ∧ v ≤ 1 - EPS ∧ 0 < v := by
  have hno : ¬ ∃ x ∈ l, x < 0 := by
    push_neg
    intro x hx
    exact (hval x hx).1
  have hEmpty : ¬ l.isEmpty := by
    simpa [List.isEmpty_iff] using hne
  refine ⟨gmCore l, ?_, (gmCore_bounds l hne).1, (gmCore_bounds l hne).2,
    lt_of_lt_of_le EPS_pos (gmCore_bounds l hne).1⟩
  unfold geometric_mean_prob
  rw [if_neg hEmpty, if_neg hno]

/-- Witness for C10: an input containing the exact value `0` still
produces a result in `[EPS, 1 - EPS]`, strictly positive. -/
theorem gm_prob_clipped_range_witness :
    ∃ v, geometric_mean_prob [(0 : ℝ)] = some v ∧ EPS ≤ v ∧ v ≤ 1 - EPS ∧ 0 < v := by
  refine gm_prob_clipped_range [(0 : ℝ)] (by simp) ?_
  intro x hx
  rw [List.mem_singleton] at hx
  subst hx
  norm_num

/-- Helper: filtering a `(question, day)` group commutes with the
renormalization map, because renormalization never changes a row's key. -/
theorem aggregate_filter_comm (snaps : List Snap) (q : ℕ) (d : ℤ) :
    (aggregate_across_forecasters snaps).filter
        (fun r => decide (r.qid = q ∧ r.day = d)) =
      ((pooledTable snaps).filter (fun r => decide (r.qid = q ∧ r.day = d))).map
        (renormRow (pooledTable snaps)) := by
  unfold aggregate_across_forecasters
  rw [List.filter_map]
  rfl

/-- Helper: inside a group, the group recomputed from any of its own rows
is the group itself. -/
theorem renorm_group_eq (tbl : List AggRow) (q : ℕ) (d : ℤ) (r : AggRow)
    (hr : r ∈ tbl.filter (fun x => decide (x.qid = q ∧ x.day = d))) :
    tbl.filter (fun x => decide (x.qid = r.qid ∧ x.day = r.day)) =
      tbl.filter (fun x => decide (x.qid = q ∧ x.day = d)) := by
  have hk := List.of_mem_filter hr
  simp only [decide_eq_true_eq] at hk
  rw [hk.1, hk.2]

/-- Claim C4: in the output of `aggregate_across_forecasters`, for every
`(question, day)` group with at least two buckets and every
estimator-method column whose raw pooled sum over the group is strictly
positive, the emitted values of that column sum to `1` within `1e-6`;
when the group has exactly one bucket, or the raw pooled sum is not
strictly positive, the column's values are passed through unchanged (no
division happens). -/
theorem aggregate_renormalization (snaps : List Snap) (q : ℕ) (d : ℤ) (c : Fin 5)
    (hvalid : ∀ s ∈ snaps, 0 ≤ s.prob ∧ s.prob ≤ 1) :
    (2 ≤ ((pooledTable snaps).filter (fun r => decide (r.qid = q ∧ r.day = d))).length →
     0 < (((pooledTable snaps).filter (fun r => decide (r.qid = q ∧ r.day = d))).map
        (fun r => r.cols c)).sum →
     |(((aggregate_across_forecasters snaps).filter
          (fun r => decide (r.qid = q ∧ r.day = d))).map (fun r => r.cols c)).sum - 1|
        ≤ 1 / 1000000) ∧
    (((pooledTable snaps).filter (fun r => decide (r.qid = q ∧ r.day = d))).length = 1 ∨
     (((pooledTable snaps).filter (fun r => decide (r.qid = q ∧ r.day = d))).map
        (fun r => r.cols c)).sum ≤ 0 →
     ((aggregate_across_forecasters snaps).filter
        (fun r => decide (r.qid = q ∧ r.day = d))).map (fun r => r.cols c) =
       ((pooledTable snaps).filter (fun r => decide (r.qid = q ∧ r.day = d))).map
        (fun r => r.cols c)) := by
  constructor
  · intro hsize hpos
    rw [aggregate_filter_comm, List.map_map]
    have hmap : ((pooledTable snaps).filter
          (fun r => decide (r.qid = q ∧ r.day = d))).map
            ((fun r => r.cols c) ∘ renormRow (pooledTable snaps)) =
        ((pooledTable snaps).filter (fun r => decide (r.qid = q ∧ r.day = d))).map
          (fun r => r.cols c *
            ((((pooledTable snaps).filter
                (fun x => decide (x.qid = q ∧ x.day = d))).map
                  (fun x => x.cols c)).sum)⁻¹) := by
      apply List.map_congr_left
      intro r hr
      simp only [Function.comp, renormRow]
      rw [renorm_group_eq (pooledTable snaps) q d r hr]
      rw [if_pos ⟨by omega, hpos⟩]
      rw [div_eq_mul_inv]
    rw [hmap, List.sum_map_mul_right]
    rw [mul_inv_cancel₀ (ne_of_gt hpos)]
    norm_num
  · intro hcase
    rw [aggregate_filter_comm, List.map_map]
    apply List.map_congr_left
    intro r hr
    simp only [Function.comp, renormRow]
    rw [renorm_group_eq (pooledTable snaps) q d r hr]
    rw [if_neg]
    rintro ⟨hlen, hpos⟩
    rcases hcase with h | h
    · omega
    · linarith

/-- Witness for C4: two buckets, one forecaster at probability `1/2`
each; the mean column of the `(question 0, day 0)` group sums to `1`. -/
theorem aggregate_renormalization_witness :
    |(((aggregate_across_forecasters
          [⟨0, 0, 0, 0, (1/2 : ℝ)⟩, ⟨0, 0, 0, 1, (1/2 : ℝ)⟩]).filter
        (fun r => decide (r.qid = 0 ∧ r.day = 0))).map
          (fun r => r.cols 0)).sum - 1| ≤ 1 / 1000000 := by
  refine (aggregate_renormalization
      [⟨0, 0, 0, 0, (1/2 : ℝ)⟩, ⟨0, 0, 0, 1, (1/2 : ℝ)⟩] 0 0 0 ?_).1 ?_ ?_
  · intro s hs
    simp only [List.mem_cons, List.not_mem_nil, or_false] at hs
    rcases hs with h | h <;> rw [h] <;> norm_num
  · show (2 : ℕ) ≤ 2
    exact le_refl 2
  · have hmap : (((pooledTable
        [⟨0, 0, 0, 0, (1/2 : ℝ)⟩, ⟨0, 0, 0, 1, (1/2 : ℝ)⟩]).filter
          (fun r => decide (r.qid = 0 ∧ r.day = 0))).map (fun r => r.cols 0)) =
        [listMean [(1/2 : ℝ)], listMean [(1/2 : ℝ)]] := rfl
    rw [hmap]
    have hmean : listMean [(1/2 : ℝ)] = 1/2 := by
      unfold listMean
      norm_num
    rw [hmean]
    norm_num

/-- Witness for C6: a post-freeze row of an excluded forecaster is
removed, while that forecaster's pre-freeze row survives. -/
theorem trim_filter_spec_witness :
    (trim_post_freeze [⟨1, 0, 5, 1/2⟩, ⟨1, 0, 10, 1/2⟩, ⟨2, 0, 10, 1/3⟩]
        7 [1]).count ⟨1, 0, 10, 1/2⟩ = 0 ∧
    (trim_post_freeze [⟨1, 0, 5, 1/2⟩, ⟨1, 0, 10, 1/2⟩, ⟨2, 0, 10, 1/3⟩]
        7 [1]).count ⟨1, 0, 5, 1/2⟩ = 1 := by
  have h1 := (trim_filter_spec [⟨1, 0, 5, 1/2⟩, ⟨1, 0, 10, 1/2⟩, ⟨2, 0, 10, 1/3⟩]
      7 [1] (by decide)).1 ⟨1, 0, 10, 1/2⟩
  have h2 := (trim_filter_spec [⟨1, 0, 5, 1/2⟩, ⟨1, 0, 10, 1/2⟩, ⟨2, 0, 10, 1/3⟩]
      7 [1] (by decide)).1 ⟨1, 0, 5, 1/2⟩
  constructor
  · simpa using h1
  · rw [h2]
    norm_num [List.count_cons]

/-- Helper: the element selected by `getLast?` is a member of the list. -/
theorem mem_of_getLast?_eq {α : Type} (l : List α) (x : α) (h : l.getLast? = some x) :
    x ∈ l := by
  have hx : x ∈ l.getLast? := h
  obtain ⟨hne, rfl⟩ := List.mem_getLast?_eq_getLast hx
  exact List.getLast_mem hne

/-- Helper: `keyEntries` of a mapped state when the map preserves keys. -/
theorem keyEntries_map (st : List Entry) (f : Entry → Entry)
    (hf : ∀ e, (f e).guid = e.guid ∧ (f e).aso = e.aso) (g a : ℕ) :
    keyEntries (st.map f) g a = (keyEntries st g a).map f := by
  unfold keyEntries
  rw [List.filter_map]
  congr 1
  apply List.filter_congr
  intro e _
  simp only [Function.comp_apply, (hf e).1, (hf e).2]

/-- Helper: `keyEntries` distributes over append. -/
theorem keyEntries_append (st1 st2 : List Entry) (g a : ℕ) :
    keyEntries (st1 ++ st2) g a = keyEntries st1 g a ++ keyEntries st2 g a := by
  unfold keyEntries
  exact List.filter_append ..

/-- Helper: upserting a submission with a different key leaves the key
entries unchanged. -/
theorem keyEntries_upsert_other (st : List Entry) (r : Submission) (g a : ℕ)
    (h : ¬ (r.guid = g ∧ r.aso = a)) :
    keyEntries (upsert st r) g a = keyEntries st g a := by
  unfold upsert
  split_ifs with hany
  · rw [keyEntries_map st _ (by intro e; split_ifs <;> simp) g a]
    have hid : ∀ e ∈ keyEntries st g a,
        (fun e => if e.guid = r.guid ∧ e.aso = r.aso then
          { e with prob := r.prob, lastDay := r.day } else e) e = id e := by
      intro e he
      have hkey := List.of_mem_filter he
      simp only [decide_eq_true_eq] at hkey
      simp only [id]
      rw [if_neg]
      rintro ⟨h1, h2⟩
      exact h ⟨by rw [← h1, hkey.1], by rw [← h2, hkey.2]⟩
    rw [List.map_congr_left hid, List.map_id]
  · rw [keyEntries_append]
    have hnil : keyEntries [⟨r.guid, r.aso, r.prob, r.day⟩] g a = [] := by
      unfold keyEntries
      simp [h]
    rw [hnil, List.append_nil]

/-- Helper: upserting into a state with no entry for the key appends a
fresh entry. -/
theorem keyEntries_upsert_same_nil (st : List Entry) (r : Submission)
    (h : keyEntries st r.guid r.aso = []) :
    keyEntries (upsert st r) r.guid r.aso = [⟨r.guid, r.aso, r.prob, r.day⟩] := by
  have hany : ¬ (st.any (fun e => decide (e.guid = r.guid ∧ e.aso = r.aso)) = true) := by
    intro hc
    rw [List.any_eq_true] at hc
    obtain ⟨e, he, hpe⟩ := hc
    have hm : e ∈ keyEntries st r.guid r.aso := List.mem_filter.mpr ⟨he, hpe⟩
    rw [h] at hm
    exact absurd hm (List.not_mem_nil e)
  unfold upsert
  rw [if_neg hany, keyEntries_append, h, List.nil_append]
  unfold keyEntries
  simp

/-- Helper: upserting into a state with exactly one entry for the key
replaces that entry in place. -/
theorem keyEntries_upsert_same_one (st : List Entry) (r : Submission) (e : Entry)
    (h : keyEntries st r.guid r.aso = [e]) :
    keyEntries (upsert st r) r.guid r.aso = [⟨r.guid, r.aso, r.prob, r.day⟩] := by
  have he_mem : e ∈ keyEntries st r.guid r.aso := by
    rw [h]
    exact List.mem_singleton_self e
  have he_key : e.guid = r.guid ∧ e.aso = r.aso := by
    have hk := List.of_mem_filter he_mem
    simpa using hk
  have hany : st.any (fun x => decide (x.guid = r.guid ∧ x.aso = r.aso)) = true := by
    rw [List.any_eq_true]
    exact ⟨e, List.mem_of_mem_filter he_mem, decide_eq_true he_key⟩
  unfold upsert
  rw [if_pos hany]
  rw [keyEntries_map st _ (by intro x; split_ifs <;> simp) r.guid r.aso, h]
  simp only [List.map_cons, List.map_nil]
  rw [if_pos he_key]
  simp [he_key.1, he_key.2]

/-- Helper: folding a day's submissions through `upsert` leaves, for each
key, the last matching submission of the day (or the previous entries when
the key does not appear), provided the key currently has at most one
entry. -/
theorem keyEntries_foldl_upsert (todays : List Submission) (st : List Entry) (g a : ℕ)
    (hlen : keyEntries st g a = [] ∨ ∃ e, keyEntries st g a = [e]) :
    keyEntries (todays.foldl upsert st) g a =
      match (todays.filter (fun r => decide (r.guid = g ∧ r.aso = a))).getLast? with
      | none => keyEntries st g a
      | some r => [⟨g, a, r.prob, r.day⟩] := by
  induction todays generalizing st with
  | nil => simp
  | cons t ts ih =>
    by_cases ht : t.guid = g ∧ t.aso = a
    · have hup : keyEntries (upsert st t) g a = [⟨g, a, t.prob, t.day⟩] := by
        rcases hlen with h | ⟨e, h⟩
        · have hu := keyEntries_upsert_same_nil st t (by rw [ht.1, ht.2]; exact h)
          rw [ht.1, ht.2] at hu
          exact hu
        · have hu := keyEntries_upsert_same_one st t e (by rw [ht.1, ht.2]; exact h)
          rw [ht.1, ht.2] at hu
          exact hu
      rw [List.foldl_cons, ih (upsert st t) (Or.inr ⟨_, hup⟩)]
      have hfc : List.filter (fun r => decide (r.guid = g ∧ r.aso = a)) (t :: ts)
          = t :: List.filter (fun r => decide (r.guid = g ∧ r.aso = a)) ts := by
        simp [List.filter_cons, ht]
      rw [hfc]
      cases hcase : (ts.filter (fun r => decide (r.guid = g ∧ r.aso = a))).getLast? with
      | none =>
        have hnil : ts.filter (fun r => decide (r.guid = g ∧ r.aso = a)) = [] :=
          List.getLast?_eq_none_iff.mp hcase
        rw [hnil]
        simp [hup]
      | some r =>
        obtain ⟨b, l2, hbl⟩ : ∃ b l2,
            ts.filter (fun r => decide (r.guid = g ∧ r.aso = a)) = b :: l2 := by
          cases hts : ts.filter (fun r => decide (r.guid = g ∧ r.aso = a)) with
          | nil =>
            rw [hts] at hcase
            simp at hcase
          | cons b l2 => exact ⟨b, l2, rfl⟩
        rw [hbl]
        rw [hbl] at hcase
        rw [List.getLast?_cons_cons, hcase]
    · rw [List.foldl_cons,
        ih (upsert st t) (by rw [keyEntries_upsert_other st t g a ht]; exact hlen)]
      rw [keyEntries_upsert_other st t g a ht]
      have hfc : List.filter (fun r => decide (r.guid = g ∧ r.aso = a)) (t :: ts)
          = List.filter (fun r => decide (r.guid = g ∧ r.aso = a)) ts := by
        simp [List.filter_cons, ht]
      rw [hfc]

/-- Helper: eviction commutes with restriction to one key. -/
theorem keyEntries_evictStale (ms : Option ℕ) (d : ℤ) (st : List Entry) (g a : ℕ) :
    keyEntries (evictStale ms d st) g a =
      (keyEntries st g a).filter (fun e => decide (keepsAt ms d e.lastDay)) := by
  cases ms with
  | none =>
    show keyEntries st g a = _
    simp [keepsAt]
  | some S =>
    unfold evictStale keyEntries
    rw [List.filter_filter, List.filter_filter]
    apply List.filter_congr
    intro e _
    show _ = (decide (keepsAt (some S) d e.lastDay) && _)
    simp only [keepsAt]
    rw [Bool.and_comm]

/-- Helper: restricting today's submissions to one key in either order
gives the same list. -/
theorem todays_key (rows : List Submission) (d : ℤ) (g a : ℕ) :
    (rows.filter (fun r => decide (r.day = d))).filter
        (fun r => decide (r.guid = g ∧ r.aso = a)) =
      (subsFor rows g a).filter (fun r => decide (r.day = d)) := by
  unfold subsFor
  rw [List.filter_filter, List.filter_filter]
  apply List.filter_congr
  intro r _
  rw [Bool.and_comm]

/-- Helper: one step of the day loop, restricted to one key. -/
theorem keyEntries_stepState (ms : Option ℕ) (rows : List Submission) (st : List Entry)
    (d : ℤ) (g a : ℕ)
    (hlen : keyEntries st g a = [] ∨ ∃ e, keyEntries st g a = [e]) :
    keyEntries (stepState ms rows st d) g a =
      (match lastOnDay rows g a d with
       | none => keyEntries st g a
       | some r => [⟨g, a, r.prob, r.day⟩]).filter
        (fun e => decide (keepsAt ms d e.lastDay)) := by
  unfold stepState
  rw [keyEntries_evictStale]
  congr 1
  rw [keyEntries_foldl_upsert _ st g a hlen]
  unfold lastOnDay
  rw [todays_key]

/-- Helper: `refSub` over a snoc of days. -/
theorem refSub_concat (rows : List Submission) (g a : ℕ) (ds : List ℤ) (d : ℤ) :
    refSub rows g a (ds ++ [d]) =
      match lastOnDay rows g a d with
      | none => refSub rows g a ds
      | some r => some r := by
  unfold refSub lastOnDay
  rw [List.foldl_append]
  rfl

/-- Helper: `stateAfter` over a snoc of days. -/
theorem stateAfter_concat (ms : Option ℕ) (rows : List Submission) (ds : List ℤ)
    (d : ℤ) :
    stateAfter ms rows (ds ++ [d]) = stepState ms rows (stateAfter ms rows ds) d := by
  unfold stateAfter
  rw [List.foldl_append]
  rfl

/-- Helper: an entry updated today always survives today's eviction. -/
theorem keepsAt_self (ms : Option ℕ) (d : ℤ) : keepsAt ms d d := by
  cases ms with
  | none => trivial
  | some S =>
    show d - d ≤ (S : ℤ)
    omega

/-- Helper: surviving a later day's eviction implies surviving an earlier
day's. -/
theorem keepsAt_mono (ms : Option ℕ) (d1 d2 U : ℤ) (h12 : d1 ≤ d2)
    (h : keepsAt ms d2 U) : keepsAt ms d1 U := by
  cases ms with
  | none => trivial
  | some S =>
    have h2 : d2 - U ≤ (S : ℤ) := h
    show d1 - U ≤ (S : ℤ)
    omega

/-- The state invariant of the carry-forward engine: after processing a
strictly increasing list of days, the state holds (for each key) exactly
one entry when the key has a processed submission whose last update still
passes the staleness check of the last processed day, carrying the
probability of the last submission (in row order) of the most recent
submission day; otherwise no entry. -/
theorem stateAfter_keyEntries (ms : Option ℕ) (rows : List Submission) (g a : ℕ)
    (ds : List ℤ) (hsort : ds.Pairwise (· < ·)) :
    keyEntries (stateAfter ms rows ds) g a =
      match refSub rows g a ds, ds.getLast? with
      | some r, some d => if keepsAt ms d r.day then [⟨g, a, r.prob, r.day⟩] else []
      | _, _ => [] := by
  induction ds using List.reverseRecOn with
  | nil => simp [stateAfter, keyEntries, refSub]
  | append_singleton ds d ih =>
    have hsort2 : ds.Pairwise (· < ·) := (List.pairwise_append.mp hsort).1
    have hlt : ∀ x ∈ ds, x < d := by
      intro x hx
      exact (List.pairwise_append.mp hsort).2.2 x hx d (List.mem_singleton_self d)
    have IH := ih hsort2
    have hlen : keyEntries (stateAfter ms rows ds) g a = [] ∨
        ∃ e, keyEntries (stateAfter ms rows ds) g a = [e] := by
      rw [IH]
      rcases refSub rows g a ds with _ | r
      · exact Or.inl rfl
      · rcases ds.getLast? with _ | d1
        · exact Or.inl rfl
        · by_cases hk : keepsAt ms d1 r.day
          · exact Or.inr ⟨_, if_pos hk⟩
          · exact Or.inl (if_neg hk)
    rw [stateAfter_concat, keyEntries_stepState ms rows _ d g a hlen, IH,
      refSub_concat, List.getLast?_concat]
    cases hlast : lastOnDay rows g a d with
    | some r =>
      have hrd : r.day = d := by
        unfold lastOnDay at hlast
        have hmem := mem_of_getLast?_eq _ _ hlast
        have hp := List.of_mem_filter hmem
        simpa using hp
      simp [hrd, keepsAt_self ms d]
    | none =>
      rcases href : refSub rows g a ds with _ | r
      · cases hl : ds.getLast? <;> simp
      · cases hl : ds.getLast? with
        | none =>
          have hnil : ds = [] := List.getLast?_eq_none_iff.mp hl
          rw [hnil] at href
          simp [refSub] at href
        | some d0 =>
          have hd0 : d0 < d := hlt d0 (mem_of_getLast?_eq ds d0 hl)
          by_cases hk : keepsAt ms d r.day
          · have hk0 : keepsAt ms d0 r.day :=
              keepsAt_mono ms d0 d r.day hd0.le hk
            simp [hk, hk0]
          · by_cases hk0 : keepsAt ms d0 r.day
            · simp [hk, hk0]
            · simp [hk, hk0]

/-- Helper: `listMaxI` is `none` exactly on the empty list. -/
theorem listMaxI_eq_none_iff (l : List ℤ) : listMaxI l = none ↔ l = [] := by
  cases l with
  | nil => simp [listMaxI]
  | cons x xs =>
    rw [listMaxI]
    cases listMaxI xs <;> simp

/-- Helper: a value returned by `listMaxI` is a member and an upper
bound. -/
theorem listMaxI_spec (l : List ℤ) (m : ℤ) (h : listMaxI l = some m) :
    m ∈ l ∧ ∀ x ∈ l, x ≤ m := by
  induction l generalizing m with
  | nil => simp [listMaxI] at h
  | cons x xs ih =>
    rw [listMaxI] at h
    cases hxs : listMaxI xs with
    | none =>
      rw [hxs] at h
      simp only [Option.some.injEq] at h
      subst h
      have hxe : xs = [] := (listMaxI_eq_none_iff xs).mp hxs
      subst hxe
      simp
    | some y =>
      rw [hxs] at h
      simp only [Option.some.injEq] at h
      obtain ⟨hmem, hbound⟩ := ih y hxs
      subst h
      constructor
      · rcases max_choice x y with hc | hc <;> rw [hc]
        · exact List.mem_cons_self x xs
        · exact List.mem_cons_of_mem x hmem
      · intro z hz
        rcases List.mem_cons.mp hz with hz | hz
        · rw [hz]
          exact le_max_left x y
        · exact le_trans (hbound z hz) (le_max_right x y)

/-- Helper: the maximum of a list containing a member that bounds the
list is that member. -/
theorem listMaxI_eq_some (l : List ℤ) (m : ℤ) (hm : m ∈ l) (hb : ∀ x ∈ l, x ≤ m) :
    listMaxI l = some m := by
  induction l with
  | nil => exact absurd hm (List.not_mem_nil m)
  | cons x xs ih =>
    rw [listMaxI]
    cases hxs : listMaxI xs with
    | none =>
      have hxe : xs = [] := (listMaxI_eq_none_iff xs).mp hxs
      subst hxe
      simp only [List.mem_singleton] at hm
      subst hm
      rfl
    | some y =>
      obtain ⟨hymem, hybound⟩ := listMaxI_spec xs y hxs
      have hxm : x ≤ m := hb x (List.mem_cons_self x xs)
      have hym : y ≤ m := hb y (List.mem_cons_of_mem x hymem)
      have hmle : m ≤ max x y := by
        rcases List.mem_cons.mp hm with hm2 | hm2
        · subst hm2
          exact le_max_left m y
        · exact le_trans (hybound m hm2) (le_max_right x y)
      have hxy : max x y = m := le_antisymm (max_le hxm hym) hmle
      show some (max x y) = some m
      rw [hxy]

/-- Helper: `listMaxI` returns a value on a non-empty list. -/
theorem listMaxI_isSome (l : List ℤ) (h : l ≠ []) : ∃ m, listMaxI l = some m := by
  cases hl : listMaxI l with
  | none => exact absurd ((listMaxI_eq_none_iff l).mp hl) h
  | some m => exact ⟨m, rfl⟩

/-- Helper: `mostRecentProb` is the probability of `mostRecentSub`. -/
theorem mostRecentProb_eq (rows : List Submission) (g a : ℕ) (D : ℤ) :
    mostRecentProb rows g a D = (mostRecentSub rows g a D).map (·.prob) := by
  unfold mostRecentProb mostRecentSub
  cases lastUpdateDay rows g a D <;> rfl

/-- Helper: when the last update day exists, the last submission of that
day exists, is dated that day, and the day is within the horizon. -/
theorem lastUpdateDay_lastOnDay (rows : List Submission) (g a : ℕ) (D U : ℤ)
    (h : lastUpdateDay rows g a D = some U) :
    ∃ r, lastOnDay rows g a U = some r ∧ r.day = U ∧ U ≤ D := by
  unfold lastUpdateDay at h
  obtain ⟨hmem, hbound⟩ := listMaxI_spec _ U h
  obtain ⟨s, hs, hsd⟩ := List.mem_map.mp hmem
  have hs_sub : s ∈ subsFor rows g a := List.mem_of_mem_filter hs
  have hs_le : s.day ≤ D := by
    have := List.of_mem_filter hs
    simpa using this
  have hne : (subsFor rows g a).filter (fun r => decide (r.day = U)) ≠ [] := by
    intro hc
    have : s ∈ (subsFor rows g a).filter (fun r => decide (r.day = U)) :=
      List.mem_filter.mpr ⟨hs_sub, decide_eq_true hsd⟩
    rw [hc] at this
    exact absurd this (List.not_mem_nil s)
  cases hr : lastOnDay rows g a U with
  | none =>
    unfold lastOnDay at hr
    exact absurd (List.getLast?_eq_none_iff.mp hr) hne
  | some r =>
    refine ⟨r, rfl, ?_, ?_⟩
    · have hmem2 := mem_of_getLast?_eq _ _ (show ((subsFor rows g a).filter
          (fun x => decide (x.day = U))).getLast? = some r from hr)
      have := List.of_mem_filter hmem2
      simpa using this
    · rw [← hsd]
      exact hs_le

/-- The reference submission of a processed-day prefix equals the
spec-level most recent submission on or before the horizon `D`, when the
prefix is exactly the set of observed days up to `D`. -/
theorem refSub_eq_mostRecentSub (rows : List Submission) (g a : ℕ) (D : ℤ)
    (pref : List ℤ) (hsort : pref.Pairwise (· < ·))
    (hdle : ∀ d ∈ pref, d ≤ D)
    (hcov : ∀ r ∈ subsFor rows g a, (r.day ≤ D ↔ r.day ∈ pref)) :
    refSub rows g a pref = mostRecentSub rows g a D := by
  induction pref using List.reverseRecOn with
  | nil =>
    have hnil : (subsFor rows g a).filter (fun r => decide (r.day ≤ D)) = [] := by
      rw [List.filter_eq_nil_iff]
      intro r hr hc
      have hle := of_decide_eq_true hc
      have := (hcov r hr).mp hle
      exact absurd this (List.not_mem_nil _)
    unfold mostRecentSub lastUpdateDay
    rw [hnil]
    rfl
  | append_singleton pref d ihp =>
    have hsort2 : pref.Pairwise (· < ·) := (List.pairwise_append.mp hsort).1
    have hlt : ∀ x ∈ pref, x < d := by
      intro x hx
      exact (List.pairwise_append.mp hsort).2.2 x hx d (List.mem_singleton_self d)
    rw [refSub_concat]
    cases hlast : lastOnDay rows g a d with
    | some r =>
      have hmem : r ∈ (subsFor rows g a).filter (fun x => decide (x.day = d)) := by
        apply mem_of_getLast?_eq
        unfold lastOnDay at hlast
        exact hlast
      have hr_sub : r ∈ subsFor rows g a := List.mem_of_mem_filter hmem
      have hr_day : r.day = d := by
        have := List.of_mem_filter hmem
        simpa using this
      have hdD : d ≤ D :=
        hdle d (List.mem_append.mpr (Or.inr (List.mem_singleton_self d)))
      have hU : lastUpdateDay rows g a D = some d := by
        unfold lastUpdateDay
        apply listMaxI_eq_some
        · apply List.mem_map.mpr
          refine ⟨r, ?_, hr_day⟩
          apply List.mem_filter.mpr
          refine ⟨hr_sub, decide_eq_true ?_⟩
          rw [hr_day]
          exact hdD
        · intro x hx
          obtain ⟨s, hs, hsd⟩ := List.mem_map.mp hx
          have hs_sub : s ∈ subsFor rows g a := List.mem_of_mem_filter hs
          have hs_le : s.day ≤ D := by
            have := List.of_mem_filter hs
            simpa using this
          have hs_pref : s.day ∈ pref ++ [d] := (hcov s hs_sub).mp hs_le
          rw [← hsd]
          rcases List.mem_append.mp hs_pref with hh | hh
          · exact (hlt s.day hh).le
          · rw [List.mem_singleton] at hh
            rw [hh]
      unfold mostRecentSub
      rw [hU]
      show some r = lastOnDay rows g a d
      exact hlast.symm
    | none =>
      have hnone : (subsFor rows g a).filter (fun x => decide (x.day = d)) = [] := by
        unfold lastOnDay at hlast
        exact List.getLast?_eq_none_iff.mp hlast
      have hnd : ∀ r ∈ subsFor rows g a, r.day ≠ d := by
        intro r hr hc
        have hmem : r ∈ (subsFor rows g a).filter (fun x => decide (x.day = d)) :=
          List.mem_filter.mpr ⟨hr, decide_eq_true hc⟩
        rw [hnone] at hmem
        exact absurd hmem (List.not_mem_nil r)
      apply ihp hsort2
      · intro x hx
        exact hdle x (List.mem_append.mpr (Or.inl hx))
      · intro r hr
        rw [hcov r hr]
        simp [List.mem_append, hnd r hr]

/-- Helper: every snapshot row is emitted on one of the processed days. -/
theorem runDays_day_mem (ms : Option ℕ) (rows : List Submission) (ds : List ℤ) :
    ∀ (st : List Entry), ∀ s ∈ runDays ms rows ds st, s.day ∈ ds := by
  induction ds with
  | nil =>
    intro st s hs
    simp [runDays] at hs
  | cons d ds ih =>
    intro st s hs
    simp only [runDays] at hs
    rcases List.mem_append.mp hs with h1 | h2
    · unfold emitDay at h1
      obtain ⟨e, he, rfl⟩ := List.mem_map.mp h1
      exact List.mem_cons_self d ds
    · exact List.mem_cons_of_mem d (ih _ s h2)

/-- Helper: the rows the engine emits for the day `D` are exactly the
entries active after processing the days up to and including `D`. -/
theorem runDays_filter_day (ms : Option ℕ) (rows : List Submission) (l1 : List ℤ)
    (D : ℤ) (l2 : List ℤ) (st : List Entry)
    (h1 : ∀ x ∈ l1, x ≠ D) (h2 : ∀ x ∈ l2, x ≠ D) :
    (runDays ms rows (l1 ++ D :: l2) st).filter (fun s => decide (s.day = D)) =
      emitDay (List.foldl (stepState ms rows) st (l1 ++ [D])) D := by
  induction l1 generalizing st with
  | nil =>
    simp only [List.nil_append, List.foldl_cons, List.foldl_nil]
    simp only [runDays]
    rw [List.filter_append]
    have hemit : (emitDay (stepState ms rows st D) D).filter
        (fun s => decide (s.day = D)) = emitDay (stepState ms rows st D) D := by
      rw [List.filter_eq_self]
      intro s hs
      unfold emitDay at hs
      obtain ⟨e, he, rfl⟩ := List.mem_map.mp hs
      simp
    have hrest : (runDays ms rows l2 (stepState ms rows st D)).filter
        (fun s => decide (s.day = D)) = [] := by
      rw [List.filter_eq_nil_iff]
      intro s hs hc
      have hd := runDays_day_mem ms rows l2 _ s hs
      exact h2 s.day hd (of_decide_eq_true hc)
    rw [hemit, hrest, List.append_nil]
  | cons x l1 ih =>
    simp only [List.cons_append, List.foldl_cons]
    simp only [runDays]
    rw [List.filter_append]
    have hemit : (emitDay (stepState ms rows st x) x).filter
        (fun s => decide (s.day = D)) = [] := by
      rw [List.filter_eq_nil_iff]
      intro s hs hc
      unfold emitDay at hs
      obtain ⟨e, he, rfl⟩ := List.mem_map.mp hs
      exact h1 x (List.mem_cons_self x l1) (by simpa using hc)
    rw [hemit, List.nil_append]
    exact ih (stepState ms rows st x) (fun y hy => h1 y (List.mem_cons_of_mem x hy))

/-- Helper: the observed days are strictly increasing. -/
theorem observedDays_sorted (rows : List Submission) :
    (observedDays rows).Pairwise (· < ·) := by
  unfold observedDays
  have hs : (((rows.map (·.day)).dedup).insertionSort (· ≤ ·)).Sorted (· ≤ ·) :=
    List.sorted_insertionSort _ ((rows.map (·.day)).dedup)
  have hnd : (((rows.map (·.day)).dedup).insertionSort (· ≤ ·)).Pairwise (· ≠ ·) := by
    have hperm := List.perm_insertionSort (· ≤ ·) ((rows.map (·.day)).dedup)
    exact hperm.nodup_iff.mpr (List.nodup_dedup _)
  exact (List.Pairwise.and hs hnd).imp (fun h => lt_of_le_of_ne h.1 h.2)

/-- Helper: every submission day is an observed day. -/
theorem mem_observedDays (rows : List Submission) (r : Submission) (hr : r ∈ rows) :
    r.day ∈ observedDays rows := by
  unfold observedDays
  rw [List.mem_insertionSort, List.mem_dedup]
  exact List.mem_map_of_mem _ hr

/-- Core characterization of the carry-forward output: on any observed
day `D`, the emitted rows for a `(forecaster, bucket)` key are empty when
the key has no submission on or before `D`, and otherwise are exactly one
row carrying the most recent submission's probability, provided that
submission's day survives the staleness check, else empty. -/
theorem snapshots_filter_eq (ms : Option ℕ) (rows : List Submission) (X B : ℕ)
    (D : ℤ) (hD : D ∈ observedDays rows) :
    (carry_forward_snapshots ms rows).filter
        (fun s => decide (s.guid = X ∧ s.aso = B ∧ s.day = D)) =
      match mostRecentSub rows X B D with
      | none => []
      | some r => if keepsAt ms D r.day then [⟨X, B, D, r.prob⟩] else [] := by
  obtain ⟨l1, l2, hsplit⟩ := List.append_of_mem hD
  have hsort := observedDays_sorted rows
  rw [hsplit] at hsort
  have hpa := List.pairwise_append.mp hsort
  have hl1D : ∀ x ∈ l1, x < D := fun x hx => hpa.2.2 x hx D (List.mem_cons_self D l2)
  have hDl2 : ∀ y ∈ l2, D < y := (List.pairwise_cons.mp hpa.2.1).1
  have hsortPref : (l1 ++ [D]).Pairwise (· < ·) := by
    rw [List.pairwise_append]
    refine ⟨hpa.1, List.pairwise_singleton _ D, ?_⟩
    intro x hx y hy
    rw [List.mem_singleton] at hy
    rw [hy]
    exact hl1D x hx
  have hstep1 : (carry_forward_snapshots ms rows).filter
      (fun s => decide (s.day = D)) =
      emitDay (stateAfter ms rows (l1 ++ [D])) D := by
    unfold carry_forward_snapshots
    rw [hsplit]
    exact runDays_filter_day ms rows l1 D l2 []
      (fun x hx => ne_of_lt (hl1D x hx)) (fun y hy => (hDl2 y hy).ne')
  have hstep2 : (carry_forward_snapshots ms rows).filter
      (fun s => decide (s.guid = X ∧ s.aso = B ∧ s.day = D)) =
      (keyEntries (stateAfter ms rows (l1 ++ [D])) X B).map
        (fun e => (⟨e.guid, e.aso, D, e.prob⟩ : SnapRow)) := by
    have hff : (carry_forward_snapshots ms rows).filter
        (fun s => decide (s.guid = X ∧ s.aso = B ∧ s.day = D)) =
        ((carry_forward_snapshots ms rows).filter
          (fun s => decide (s.day = D))).filter
            (fun s => decide (s.guid = X ∧ s.aso = B)) := by
      rw [List.filter_filter]
      apply List.filter_congr
      intro s _
      simp only [Bool.decide_and]
      cases decide (s.guid = X) <;> cases decide (s.aso = B) <;>
        cases decide (s.day = D) <;> rfl
    rw [hff, hstep1]
    unfold emitDay
    rw [List.filter_map]
    rfl
  rw [hstep2, stateAfter_keyEntries ms rows X B (l1 ++ [D]) hsortPref]
  have hcov : ∀ r ∈ subsFor rows X B, (r.day ≤ D ↔ r.day ∈ l1 ++ [D]) := by
    intro r hr
    constructor
    · intro hle
      have hmem : r.day ∈ observedDays rows :=
        mem_observedDays rows r (List.mem_of_mem_filter hr)
      rw [hsplit] at hmem
      rcases List.mem_append.mp hmem with hh | hh
      · exact List.mem_append.mpr (Or.inl hh)
      · rcases List.mem_cons.mp hh with hh2 | hh2
        · rw [hh2]
          exact List.mem_append.mpr (Or.inr (List.mem_singleton_self D))
        · exact absurd hle (not_le.mpr (hDl2 r.day hh2))
    · intro hmem
      rcases List.mem_append.mp hmem with hh | hh
      · exact (hl1D r.day hh).le
      · rw [List.mem_singleton] at hh
        rw [hh]
  rw [refSub_eq_mostRecentSub rows X B D (l1 ++ [D]) hsortPref
    (fun d hd => by
      rcases List.mem_append.mp hd with hh | hh
      · exact (hl1D d hh).le
      · rw [List.mem_singleton] at hh
        rw [hh]) hcov]
  rw [List.getLast?_concat]
  cases hmr : mostRecentSub rows X B D with
  | none => simp
  | some r =>
    by_cases hk : keepsAt ms D r.day
    · simp [hk]
    · simp [hk]

/-- Claim C1: with no staleness limit, once forecaster `X` has a genuine
submission for bucket `B` on observed day `d0`, every observed day
`D ≥ d0` gets exactly one snapshot row for `(X, B, D)`, and its
probability is `X`'s most recent submission for `B` on or before `D`
(within a day, the last submission in original row order wins). -/
theorem carry_forward_no_staleness (rows : List Submission) (X B : ℕ) (d0 D : ℤ)
    (hsub : ∃ r ∈ rows, r.guid = X ∧ r.aso = B ∧ r.day = d0)
    (hD : D ∈ observedDays rows) (hle : d0 ≤ D) :
    ((carry_forward_snapshots none rows).filter
        (fun s => decide (s.guid = X ∧ s.aso = B ∧ s.day = D))).length = 1 ∧
    ∀ s ∈ carry_forward_snapshots none rows,
      s.guid = X → s.aso = B → s.day = D →
        some s.prob = mostRecentProb rows X B D := by
  obtain ⟨r0, hr0_mem, hr0g, hr0a, hr0d⟩ := hsub
  have hr0_sub : r0 ∈ subsFor rows X B :=
    List.mem_filter.mpr ⟨hr0_mem, decide_eq_true ⟨hr0g, hr0a⟩⟩
  have hcand : r0 ∈ (subsFor rows X B).filter (fun r => decide (r.day ≤ D)) :=
    List.mem_filter.mpr ⟨hr0_sub, decide_eq_true (by rw [hr0d]; exact hle)⟩
  have hne : ((subsFor rows X B).filter (fun r => decide (r.day ≤ D))).map (·.day)
      ≠ [] :=
    List.ne_nil_of_mem (List.mem_map_of_mem _ hcand)
  obtain ⟨U, hU0⟩ := listMaxI_isSome _ hne
  have hU : lastUpdateDay rows X B D = some U := hU0
  obtain ⟨r, hlast, hrday, hUD⟩ := lastUpdateDay_lastOnDay rows X B D U hU
  have hmr : mostRecentSub rows X B D = some r := by
    unfold mostRecentSub
    rw [hU]
    show lastOnDay rows X B U = some r
    exact hlast
  have hfe := snapshots_filter_eq none rows X B D hD
  have hfe2 : (carry_forward_snapshots none rows).filter
      (fun s => decide (s.guid = X ∧ s.aso = B ∧ s.day = D)) = [⟨X, B, D, r.prob⟩] := by
    rw [hfe, hmr]
    rfl
  constructor
  · rw [hfe2]
    rfl
  · intro s hs hg ha hd
    have hsf : s ∈ (carry_forward_snapshots none rows).filter
        (fun s => decide (s.guid = X ∧ s.aso = B ∧ s.day = D)) :=
      List.mem_filter.mpr ⟨hs, decide_eq_true ⟨hg, ha, hd⟩⟩
    rw [hfe2, List.mem_singleton] at hsf
    rw [hsf, mostRecentProb_eq, hmr]
    rfl

/-- Witness for C1: forecaster `1` submits twice for bucket `0` on day
`1` (last write `2/5` wins); on the later observed day `2` exactly one
carried-forward row exists for the key. -/
theorem carry_forward_no_staleness_witness :
    ((carry_forward_snapshots none
        [⟨1, 0, 1, 3/10⟩, ⟨2, 0, 2, 1/2⟩, ⟨1, 0, 1, 2/5⟩]).filter
      (fun s => decide (s.guid = 1 ∧ s.aso = 0 ∧ s.day = 2))).length = 1 :=
  (carry_forward_no_staleness
    [⟨1, 0, 1, 3/10⟩, ⟨2, 0, 2, 1/2⟩, ⟨1, 0, 1, 2/5⟩] 1 0 1 2
    ⟨⟨1, 0, 1, 3/10⟩, List.mem_cons_self _ _, rfl, rfl, rfl⟩
    (by decide) (by decide)).1

/-- Claim C3: with staleness limit `S`, an observed day `D` carries a
snapshot row for a `(forecaster, bucket)` key exactly when the key has a
last update day `U ≤ D` with `D - U ≤ S` (boundary inclusive); an entry
with `D - U > S` is evicted and emits nothing. -/
theorem carry_forward_staleness (rows : List Submission) (S : ℕ) (X B : ℕ) (D : ℤ)
    (hD : D ∈ observedDays rows) :
    ((carry_forward_snapshots (some S) rows).filter
        (fun s => decide (s.guid = X ∧ s.aso = B ∧ s.day = D))).length =
      match lastUpdateDay rows X B D with
      | none => 0
      | some U => if D - U ≤ (S : ℤ) then 1 else 0 := by
  have hfe := snapshots_filter_eq (some S) rows X B D hD
  cases hU : lastUpdateDay rows X B D with
  | none =>
    have hmr : mostRecentSub rows X B D = none := by
      unfold mostRecentSub
      rw [hU]
      rfl
    rw [hmr] at hfe
    rw [hfe]
    rfl
  | some U =>
    obtain ⟨r, hlast, hrday, hUD⟩ := lastUpdateDay_lastOnDay rows X B D U hU
    have hmr : mostRecentSub rows X B D = some r := by
      unfold mostRecentSub
      rw [hU]
      show lastOnDay rows X B U = some r
      exact hlast
    rw [hmr] at hfe
    rw [hfe]
    show (if keepsAt (some S) D r.day
        then [(⟨X, B, D, r.prob⟩ : SnapRow)] else []).length =
      if D - U ≤ (S : ℤ) then 1 else 0
    by_cases hk : D - U ≤ (S : ℤ)
    · rw [if_pos hk,
        if_pos (show keepsAt (some S) D r.day from by rw [hrday]; exact hk)]
      rfl
    · rw [if_neg hk,
        if_neg (show ¬ keepsAt (some S) D r.day from by rw [hrday]; exact hk)]
      rfl

/-- Witness for C3: with `S = 7`, a forecaster last active on day `0` has
a row on observed day `7` (exactly at the boundary) but none on observed
day `8`. -/
theorem carry_forward_staleness_witness :
    ((carry_forward_snapshots (some 7)
        [⟨1, 0, 0, 3/10⟩, ⟨2, 0, 7, 1/2⟩, ⟨2, 0, 8, 1/2⟩]).filter
      (fun s => decide (s.guid = 1 ∧ s.aso = 0 ∧ s.day = 7))).length = 1 ∧
    ((carry_forward_snapshots (some 7)
        [⟨1, 0, 0, 3/10⟩, ⟨2, 0, 7, 1/2⟩, ⟨2, 0, 8, 1/2⟩]).filter
      (fun s => decide (s.guid = 1 ∧ s.aso = 0 ∧ s.day = 8))).length = 0 := by
  constructor
  · rw [carry_forward_staleness
      [⟨1, 0, 0, 3/10⟩, ⟨2, 0, 7, 1/2⟩, ⟨2, 0, 8, 1/2⟩] 7 1 0 7 (by decide)]
    rfl
  · rw [carry_forward_staleness
      [⟨1, 0, 0, 3/10⟩, ⟨2, 0, 7, 1/2⟩, ⟨2, 0, 8, 1/2⟩] 7 1 0 8 (by decide)]
    rfl
